import Mathlib

/-
Verification of the args command-line parsing library (parser.go).

The Go source is shallowly embedded as follows.

Data model: the Go structs flagDef, optionDef, Result and Parser become Lean
structures (Parser is an inductive because its commands field is recursive).
Go maps become association lists; inserting into a map is modelled by consing
the new pair in front, so that List.lookup, which returns the first binding,
sees the most recent one, matching the overwrite semantics of Go map writes.
The parent back-pointer of a Go Parser is only ever used by the upward walks
collectFlags and collectOptions, so those are embedded as functions over the
explicit chain of ancestor declaration lists, from the starting node up to the
root, exactly the sequence of nodes the Go loop visits.  The handler field,
Usage, getPath and all printing are out of scope of the claims and are not
embedded.  Go errors are embedded as the exact message strings the source
builds, so EmptyInputError is the string given to errors.New in Parse and
UnknownFlagError is the formatted unknown-flag message.

Strings: Go byte strings are embedded as Lean String; strings.HasPrefix and
slicing at a prefix boundary act on whole characters for the UTF-8 strings Go
produces here, so the character-list view (String.data) is a faithful model.
-/

set_option maxHeartbeats 1000000

namespace ArgsSpec

/-- flagDef mirrors the Go struct flagDef in parser.go. -/
structure flagDef where
  name : String
  short : String
  help : String
deriving DecidableEq, Repr

/-- optionDef mirrors the Go struct optionDef in parser.go. -/
structure optionDef where
  name : String
  short : String
  help : String
  choices : List String
deriving DecidableEq, Repr

/-- Result mirrors the Go struct Result in parser.go.  Flags and Options are
Go maps, embedded as association lists read through List.lookup. -/
structure Result where
  Command : List String
  Flags : List (String × Bool)
  Options : List (String × String)
  Positionals : List String
  Args : List String
deriving DecidableEq, Repr

/-- Parser mirrors the Go struct Parser in parser.go: name, description, the
flag and option declarations of the node, the children keyed by subcommand
name, and the declared positional labels.  The parent pointer is represented
implicitly (see collectFlags) and the handler field is out of scope. -/
inductive Parser where
  | mk (name description : String) (flags : List flagDef) (options : List optionDef)
      (commands : List (String × Parser)) (positionals : List String)

/-- name field accessor of Parser. -/
def Parser.name : Parser → String
  | .mk n _ _ _ _ _ => n

/-- description field accessor of Parser. -/
def Parser.description : Parser → String
  | .mk _ d _ _ _ _ => d

/-- flags field accessor of Parser. -/
def Parser.flags : Parser → List flagDef
  | .mk _ _ f _ _ _ => f

/-- options field accessor of Parser. -/
def Parser.options : Parser → List optionDef
  | .mk _ _ _ o _ _ => o

/-- commands field accessor of Parser. -/
def Parser.commands : Parser → List (String × Parser)
  | .mk _ _ _ _ c _ => c

/-- positionals field accessor of Parser. -/
def Parser.positionals : Parser → List String
  | .mk _ _ _ _ _ p => p

/-- charsLead l m decides whether the character list l is an initial segment
of m; it is the character-level content of strings.HasPrefix from the Go
standard library. -/
def charsLead : List Char → List Char → Bool
  | [], _ => true
  | _ :: _, [] => false
  | a :: as, b :: bs => a == b && charsLead as bs

/-- strStarts s pre embeds the Go call strings.HasPrefix(s, pre). -/
def strStarts (s pre : String) : Bool :=
  charsLead pre.data s.data

/-- strDrop s n embeds the Go slice s[n:] taken at a character boundary. -/
def strDrop (s : String) (n : Nat) : String :=
  String.mk (s.data.drop n)

/-- flagMatches is the match condition of the loop body of Parser.parseFlag in
parser.go: the token equals the long form of the flag, or the short form when
a short alias is declared. -/
def flagMatches (f : flagDef) (arg : String) : Bool :=
  arg == "--" ++ f.name || (f.short != "" && arg == "-" ++ f.short)

/-- parseFlag embeds Parser.parseFlag from parser.go: scan the declared flags
of the current node, and on the first token match record the flag as true and
report one consumed token.  The Go method mutates the Result and returns a
handled flag with a consumed count; here the updated Result is returned with
the count, and none stands for handled being false. -/
def parseFlag : List flagDef → String → Result → Option (Result × Nat)
  | [], _, _ => none
  | f :: rest, arg, r =>
    if flagMatches f arg then
      some ({ r with Flags := (f.name, true) :: r.Flags }, 1)
    else
      parseFlag rest arg r

/-- inlineMatches states that the token carries one of the two inline forms of
the option checked by the first two branches of the loop body of
Parser.parseOption in parser.go. -/
def inlineMatches (o : optionDef) (arg : String) : Bool :=
  strStarts arg ("--" ++ o.name ++ "=") || (o.short != "" && strStarts arg ("-" ++ o.short ++ "="))

/-- bareMatches states that the token equals one of the two bare forms of the
option checked by the third branch of the loop body of Parser.parseOption. -/
def bareMatches (o : optionDef) (arg : String) : Bool :=
  arg == "--" ++ o.name || (o.short != "" && arg == "-" ++ o.short)

/-- optMatches states that the token matches the option in any of the four
forms of Parser.parseOption. -/
def optMatches (o : optionDef) (arg : String) : Bool :=
  inlineMatches o arg || bareMatches o arg

/-- parseOption embeds Parser.parseOption from parser.go.  The second list
argument is args[i:], the token suffix starting at the current token, exactly
as the Go method receives it.  For each declared option the four forms are
tried in source order; in the bare form the following token is the value and
two tokens are consumed, and when no following token exists the Go method
returns handled false immediately, ending the scan, embedded here by the
catch-all none of the inner match. -/
def parseOption : List optionDef → String → List String → Result → Option (Result × Nat)
  | [], _, _, _ => none
  | opt :: rest, arg, argsFrom, r =>
    if strStarts arg ("--" ++ opt.name ++ "=") then
      some ({ r with Options := (opt.name, strDrop arg ("--" ++ opt.name ++ "=").length) :: r.Options }, 1)
    else if opt.short != "" && strStarts arg ("-" ++ opt.short ++ "=") then
      some ({ r with Options := (opt.name, strDrop arg ("-" ++ opt.short ++ "=").length) :: r.Options }, 1)
    else if arg == "--" ++ opt.name || (opt.short != "" && arg == "-" ++ opt.short) then
      match argsFrom with
      | _ :: v :: _ => some ({ r with Options := (opt.name, v) :: r.Options }, 2)
      | _ => none
    else
      parseOption rest arg argsFrom r

/-- parseLoop embeds the main loop of Parser.Parse in parser.go.  The cursor i
over args is embedded by recursing on the remaining token suffix; current is
the active node.  A token equal to a child name descends; otherwise a
dash-prefixed token is tried as a flag, then as an option, else the parse
fails; any other token is a positional.  The consumed count returned by
parseOption advances the cursor by one or two. -/
def parseLoop : Parser → List String → Result → Except String Result
  | _, [], r => Except.ok r
  | cur, arg :: rest, r =>
    match List.lookup arg cur.commands with
    | some cmd => parseLoop cmd rest { r with Command := r.Command ++ [arg] }
    | none =>
      if strStarts arg "-" then
        match parseFlag cur.flags arg r with
        | some (r2, _) => parseLoop cur rest r2
        | none =>
          match parseOption cur.options arg (arg :: rest) r with
          | some (r2, c) =>
            if c == 2 then
              match rest with
              | _ :: rest2 => parseLoop cur rest2 r2
              | [] => Except.ok r2
            else
              parseLoop cur rest r2
          | none => Except.error ("unknown flag: " ++ arg)
      else
        parseLoop cur rest { r with Positionals := r.Positionals ++ [arg] }

/-- Parse embeds Parser.Parse from parser.go: an empty argument list is the
error given to errors.New; otherwise the main loop runs from the root with a
fresh Result, and on success Args is set to Positionals. -/
def Parser.Parse (p : Parser) (args : List String) : Except String Result :=
  match args with
  | [] => Except.error ("no arguments provided")
  | _ =>
    match parseLoop p args { Command := [], Flags := [], Options := [], Positionals := [], Args := [] } with
    | Except.ok r => Except.ok { r with Args := r.Positionals }
    | Except.error e => Except.error e

/-- Flag embeds the accessor Result.Flag from parser.go: a missing key reads
as false. -/
def Result.Flag (r : Result) (name : String) : Bool :=
  match List.lookup name r.Flags with
  | none => false
  | some v => v

/-- collectFlagsAux embeds the body of Parser.collectFlags: one pass over the
flag definitions seen while walking from the node to the root, keeping the
first definition of each name in a seen set. -/
def collectFlagsAux : List flagDef → List String → List flagDef
  | [], _ => []
  | f :: fs, seen =>
    if f.name ∈ seen then collectFlagsAux fs seen
    else f :: collectFlagsAux fs (f.name :: seen)

/-- collectFlags embeds Parser.collectFlags from parser.go.  The Go method
walks parent pointers from the node to the root, scanning the flag map of each
level; the chain argument is that node-to-root sequence of flag declaration
lists, and the walk is one pass over their concatenation with a seen set. -/
def collectFlags (chain : List (List flagDef)) : List flagDef :=
  collectFlagsAux chain.flatten []

/-- collectOptionsAux embeds the body of Parser.collectOptions, structurally
identical to collectFlagsAux over option definitions. -/
def collectOptionsAux : List optionDef → List String → List optionDef
  | [], _ => []
  | o :: os, seen =>
    if o.name ∈ seen then collectOptionsAux os seen
    else o :: collectOptionsAux os (o.name :: seen)

/-- collectOptions embeds Parser.collectOptions from parser.go, over the
node-to-root chain of option declaration lists. -/
def collectOptions (chain : List (List optionDef)) : List optionDef :=
  collectOptionsAux chain.flatten []

/-- runWalk embeds the dispatch walk of Parser.Run in parser.go: from the
root, each name of Result.Command is looked up in the commands map of the
current node.  The Go loop indexes the map without a check, so a missing name
yields a nil node there; the walk is embedded as an Option where none marks
exactly that nil outcome. -/
def runWalk : Parser → List String → Option Parser
  | p, [] => some p
  | p, c :: cs =>
    match List.lookup c p.commands with
    | some child => runWalk child cs
    | none => none

/-! Concrete parser trees used as test fixtures below. -/

/-- emptyR is the fresh Result allocated at the start of Parse. -/
def emptyR : Result :=
  { Command := [], Flags := [], Options := [], Positionals := [], Args := [] }

/-- emptyNode is a parser node with no declarations. -/
def emptyNode : Parser :=
  Parser.mk ("") ("") [] [] [] []

/-- nodeRun is the run subcommand of the README example: flag detach with
short d, and option name without a short alias. -/
def nodeRun : Parser :=
  Parser.mk ("run") ("Run container") [flagDef.mk ("detach") ("d") ("")]
    [optionDef.mk ("name") ("") ("") []] [] []

/-- nodeApp is the README docker root with the single child command run. -/
def nodeApp : Parser :=
  Parser.mk ("docker") ("") [] [] [(("run"), nodeRun)] []

/-- nodeCfg is a root declaring only the option config with short c. -/
def nodeCfg : Parser :=
  Parser.mk ("app") ("") [] [optionDef.mk ("config") ("c") ("") []] [] []

/-- nodeClash declares a flag named detach and also a child command whose
name is the literal token of the long flag form. -/
def nodeClash : Parser :=
  Parser.mk ("app") ("") [flagDef.mk ("detach") ("d") ("")] [] [(("--detach"), emptyNode)] []

/-- rootV declares a flag verbose at the root and a child command sub with no
declarations of its own. -/
def rootV : Parser :=
  Parser.mk ("app") ("") [flagDef.mk ("verbose") ("v") ("")] [] [(("sub"), emptyNode)] []

/-- P2x has no flags and no options, and one child command whose name begins
with a dash. -/
def P2x : Parser :=
  Parser.mk ("app") ("") [] [] [(("--x"), emptyNode)] []

/-- P4 declares the option a together with a flag whose name is the literal
inline token of that option with value v. -/
def P4 : Parser :=
  Parser.mk ("app") ("") [flagDef.mk ("a=v") ("") ("")] [optionDef.mk ("a") ("") ("") []] [] []

/-- P5 declares a flag and an option that share the name x. -/
def P5 : Parser :=
  Parser.mk ("app") ("") [flagDef.mk ("x") ("") ("")] [optionDef.mk ("x") ("") ("") []] [] []

/-- P6 declares a flag named a and also a child command whose name is the
literal token of the long form of that flag. -/
def P6 : Parser :=
  Parser.mk ("app") ("") [flagDef.mk ("a") ("") ("")] [] [(("--a"), emptyNode)] []

/-- chainF3 is a three-level node-to-root chain of flag declarations, with
the name verbose declared both at the node and at its parent. -/
def chainF3 : List (List flagDef) :=
  [[flagDef.mk ("verbose") ("v") ("")],
   [flagDef.mk ("verbose") ("") ("parent"), flagDef.mk ("quiet") ("q") ("")],
   [flagDef.mk ("force") ("f") ("")]]

/-- chainO3 is a three-level node-to-root chain of option declarations, with
the name out declared both at the node and at the root. -/
def chainO3 : List (List optionDef) :=
  [[optionDef.mk ("out") ("o") ("") []],
   [optionDef.mk ("level") ("l") ("") []],
   [optionDef.mk ("out") ("") ("root") [], optionDef.mk ("mode") ("m") ("") []]]

/-- resApp is the Result of the README scenario parse on nodeApp. -/
def resApp : Result :=
  { Command := [("run")], Flags := [(("detach"), true)], Options := [(("name"), ("web"))],
    Positionals := [("nginx")], Args := [("nginx")] }

/-! Basic facts about the embedded string primitives. -/

theorem strData_append (s t : String) : (s ++ t).data = s.data ++ t.data := by
  cases s
  cases t
  rfl

theorem charsLead_append (l m : List Char) : charsLead l (l ++ m) = true := by
  induction l with
  | nil => rfl
  | cons a as ih => simp [charsLead, ih]

theorem strStarts_self_append (p s : String) : strStarts (p ++ s) p = true := by
  simp [strStarts, strData_append, charsLead_append]

theorem strLength_data (s : String) : s.length = s.data.length := rfl

theorem dropSelfAppend (l m : List Char) : (l ++ m).drop l.length = m := by
  induction l with
  | nil => rfl
  | cons a as ih => simp [ih]

theorem strDrop_self_append (p s : String) : strDrop (p ++ s) p.length = s := by
  have h : (p ++ s).data.drop p.length = s.data := by
    rw [strData_append, strLength_data]
    exact dropSelfAppend p.data s.data
  simp [strDrop, h]

theorem strStarts_dash_dash (s : String) : strStarts ("-" ++ s) "-" = true :=
  strStarts_self_append ("-") s

theorem strStarts_ddash_dash (s : String) : strStarts ("--" ++ s) "-" = true := by
  have h : ("--" ++ s).data = ['-'] ++ (['-'] ++ s.data) := by
    rw [strData_append]
    rfl
  simp [strStarts, h, charsLead, charsLead_append]

theorem strData_injective (s t : String) (h : s.data = t.data) : s = t := by
  cases s
  cases t
  cases h
  rfl

theorem strAppend_assoc (a b c : String) : a ++ b ++ c = a ++ (b ++ c) :=
  strData_injective _ _ (by simp [strData_append])

theorem flagMatches_long (f : flagDef) : flagMatches f ("--" ++ f.name) = true := by
  simp [flagMatches]

theorem flagMatches_short (f : flagDef) (h : f.short ≠ "") :
    flagMatches f ("-" ++ f.short) = true := by
  simp [flagMatches, h]

/-! First-match and no-match lemmas for the flag scan. -/

theorem parseFlag_none (fs : List flagDef) (arg : String) (r : Result)
    (h : ∀ f ∈ fs, flagMatches f arg = false) : parseFlag fs arg r = none := by
  induction fs with
  | nil => rfl
  | cons f rest ih =>
    have hf := h f (by simp)
    simp [parseFlag, hf]
    exact ih fun g hg => h g (by simp [hg])

theorem parseFlag_first (fs : List flagDef) (f : flagDef) (arg : String) (r : Result)
    (hmem : f ∈ fs) (hm : flagMatches f arg = true)
    (hother : ∀ g ∈ fs, g ≠ f → flagMatches g arg = false) :
    parseFlag fs arg r = some ({ r with Flags := (f.name, true) :: r.Flags }, 1) := by
  induction fs with
  | nil => cases hmem
  | cons g rest ih =>
    by_cases hgf : g = f
    · subst hgf
      simp [parseFlag, hm]
    · have hg := hother g (by simp) hgf
      simp [parseFlag, hg]
      rcases List.mem_cons.mp hmem with h1 | h1
      · exact absurd h1.symm hgf
      · exact ih h1 fun g2 hg2 => hother g2 (by simp [hg2])

/-! No-match and first-match lemmas for the option scan. -/

theorem parseOption_none (os : List optionDef) (arg : String) (argsFrom : List String) (r : Result)
    (h : ∀ o ∈ os, inlineMatches o arg = false ∧ (bareMatches o arg = true → argsFrom.length ≤ 1)) :
    parseOption os arg argsFrom r = none := by
  induction os with
  | nil => rfl
  | cons o rest ih =>
    obtain ⟨hin, hbare⟩ := h o (by simp)
    simp only [inlineMatches, Bool.or_eq_false_iff, Bool.and_eq_false_iff] at hin
    obtain ⟨hin1, hin2⟩ := hin
    by_cases hb : bareMatches o arg = true
    · have hlen := hbare hb
      simp only [bareMatches] at hb
      simp only [parseOption, hin1, hb]
      rcases hin2 with h2 | h2
      · simp [h2]
        match argsFrom, hlen with
        | [], _ => rfl
        | [a], _ => rfl
      · simp [h2]
        match argsFrom, hlen with
        | [], _ => rfl
        | [a], _ => rfl
    · have hb2 : bareMatches o arg = false := by
        cases hq : bareMatches o arg
        · rfl
        · exact absurd hq hb
      simp only [bareMatches, Bool.or_eq_false_iff, Bool.and_eq_false_iff] at hb2
      obtain ⟨hb1, hb3⟩ := hb2
      simp only [parseOption, hin1, hb1]
      rcases hin2 with h2 | h2 <;> rcases hb3 with h3 | h3 <;>
        simp [h2, h3, ih fun o2 ho2 => h o2 (by simp [ho2])]

theorem optMatches_false_parts (o : optionDef) (arg : String) (h : optMatches o arg = false) :
    strStarts arg ("--" ++ o.name ++ "=") = false ∧
    (o.short != "" && strStarts arg ("-" ++ o.short ++ "=")) = false ∧
    (arg == "--" ++ o.name || (o.short != "" && arg == "-" ++ o.short)) = false := by
  simp only [optMatches, inlineMatches, bareMatches, Bool.or_eq_false_iff] at h
  obtain ⟨⟨h1, h2⟩, h3⟩ := h
  refine ⟨h1, h2, ?_⟩
  simp [h3]

theorem parseOption_first_long (os : List optionDef) (opt : optionDef) (arg : String)
    (argsFrom : List String) (r : Result) (hmem : opt ∈ os)
    (hst : strStarts arg ("--" ++ opt.name ++ "=") = true)
    (hother : ∀ o ∈ os, o ≠ opt → optMatches o arg = false) :
    parseOption os arg argsFrom r =
      some ({ r with Options := (opt.name, strDrop arg ("--" ++ opt.name ++ "=").length) :: r.Options }, 1) := by
  induction os with
  | nil => cases hmem
  | cons o rest ih =>
    by_cases ho : o = opt
    · subst ho
      simp [parseOption, hst]
    · obtain ⟨h1, h2, h3⟩ := optMatches_false_parts o arg (hother o (by simp) ho)
      simp only [parseOption, h1, h2, h3]
      simp only [Bool.false_eq_true, if_false]
      rcases List.mem_cons.mp hmem with hm | hm
      · exact absurd hm.symm ho
      · exact ih hm fun o2 ho2 => hother o2 (by simp [ho2])

theorem parseOption_first_short (os : List optionDef) (opt : optionDef) (arg : String)
    (argsFrom : List String) (r : Result) (hmem : opt ∈ os)
    (hshort : opt.short ≠ "")
    (hst : strStarts arg ("-" ++ opt.short ++ "=") = true)
    (hnotlong : strStarts arg ("--" ++ opt.name ++ "=") = false)
    (hother : ∀ o ∈ os, o ≠ opt → optMatches o arg = false) :
    parseOption os arg argsFrom r =
      some ({ r with Options := (opt.name, strDrop arg ("-" ++ opt.short ++ "=").length) :: r.Options }, 1) := by
  induction os with
  | nil => cases hmem
  | cons o rest ih =>
    by_cases ho : o = opt
    · subst ho
      simp [parseOption, hst, hnotlong, hshort]
    · obtain ⟨h1, h2, h3⟩ := optMatches_false_parts o arg (hother o (by simp) ho)
      simp only [parseOption, h1, h2, h3]
      simp only [Bool.false_eq_true, if_false]
      rcases List.mem_cons.mp hmem with hm | hm
      · exact absurd hm.symm ho
      · exact ih hm fun o2 ho2 => hother o2 (by simp [ho2])

theorem parseOption_first_bare (os : List optionDef) (opt : optionDef) (arg : String)
    (a v : String) (l : List String) (r : Result) (hmem : opt ∈ os)
    (hbare : bareMatches opt arg = true)
    (hnoinline : inlineMatches opt arg = false)
    (hother : ∀ o ∈ os, o ≠ opt → optMatches o arg = false) :
    parseOption os arg (a :: v :: l) r =
      some ({ r with Options := (opt.name, v) :: r.Options }, 2) := by
  induction os with
  | nil => cases hmem
  | cons o rest ih =>
    by_cases ho : o = opt
    · subst ho
      simp only [inlineMatches, Bool.or_eq_false_iff, Bool.and_eq_false_iff] at hnoinline
      obtain ⟨h1, h2⟩ := hnoinline
      simp only [bareMatches] at hbare
      simp only [parseOption, h1, hbare]
      rcases h2 with h2 | h2 <;> simp [h2]
    · obtain ⟨h1, h2, h3⟩ := optMatches_false_parts o arg (hother o (by simp) ho)
      simp only [parseOption, h1, h2, h3]
      simp only [Bool.false_eq_true, if_false]
      rcases List.mem_cons.mp hmem with hm | hm
      · exact absurd hm.symm ho
      · exact ih hm fun o2 ho2 => hother o2 (by simp [ho2])

/-! Single-step unfolding lemmas for the main parse loop, one per branch. -/

theorem parseLoop_step_sub (cur c : Parser) (t : String) (rest : List String) (r : Result)
    (h : List.lookup t cur.commands = some c) :
    parseLoop cur (t :: rest) r = parseLoop c rest { r with Command := r.Command ++ [t] } := by
  simp [parseLoop, h]

theorem parseLoop_step_flag (cur : Parser) (t : String) (rest : List String) (r r2 : Result) (n : Nat)
    (h1 : List.lookup t cur.commands = none)
    (h2 : strStarts t "-" = true)
    (h3 : parseFlag cur.flags t r = some (r2, n)) :
    parseLoop cur (t :: rest) r = parseLoop cur rest r2 := by
  simp [parseLoop, h1, h2, h3]

theorem parseLoop_step_opt1 (cur : Parser) (t : String) (rest : List String) (r r2 : Result)
    (h1 : List.lookup t cur.commands = none)
    (h2 : strStarts t "-" = true)
    (h3 : parseFlag cur.flags t r = none)
    (h4 : parseOption cur.options t (t :: rest) r = some (r2, 1)) :
    parseLoop cur (t :: rest) r = parseLoop cur rest r2 := by
  simp [parseLoop, h1, h2, h3, h4]

theorem parseLoop_step_opt2 (cur : Parser) (t v : String) (rest : List String) (r r2 : Result)
    (h1 : List.lookup t cur.commands = none)
    (h2 : strStarts t "-" = true)
    (h3 : parseFlag cur.flags t r = none)
    (h4 : parseOption cur.options t (t :: v :: rest) r = some (r2, 2)) :
    parseLoop cur (t :: v :: rest) r = parseLoop cur rest r2 := by
  simp [parseLoop, h1, h2, h3, h4]

theorem parseLoop_step_err (cur : Parser) (t : String) (rest : List String) (r : Result)
    (h1 : List.lookup t cur.commands = none)
    (h2 : strStarts t "-" = true)
    (h3 : parseFlag cur.flags t r = none)
    (h4 : parseOption cur.options t (t :: rest) r = none) :
    parseLoop cur (t :: rest) r = Except.error ("unknown flag: " ++ t) := by
  simp [parseLoop, h1, h2, h3, h4]

theorem parseLoop_step_pos (cur : Parser) (t : String) (rest : List String) (r : Result)
    (h1 : List.lookup t cur.commands = none)
    (h2 : strStarts t "-" = false) :
    parseLoop cur (t :: rest) r = parseLoop cur rest { r with Positionals := r.Positionals ++ [t] } := by
  simp [parseLoop, h1, h2]

/-! Extra step lemmas used by the dispatch-walk invariant. -/

theorem parseLoop_step_optc (cur : Parser) (t : String) (rest : List String) (r r2 : Result) (c : Nat)
    (h1 : List.lookup t cur.commands = none)
    (h2 : strStarts t "-" = true)
    (h3 : parseFlag cur.flags t r = none)
    (h4 : parseOption cur.options t (t :: rest) r = some (r2, c))
    (h5 : (c == 2) = false) :
    parseLoop cur (t :: rest) r = parseLoop cur rest r2 := by
  simp [parseLoop, h1, h2, h3, h4, h5]

theorem parseLoop_step_opt2_end (cur : Parser) (t : String) (r r2 : Result)
    (h1 : List.lookup t cur.commands = none)
    (h2 : strStarts t "-" = true)
    (h3 : parseFlag cur.flags t r = none)
    (h4 : parseOption cur.options t [t] r = some (r2, 2)) :
    parseLoop cur [t] r = Except.ok r2 := by
  simp [parseLoop, h1, h2, h3, h4]

/-! Positional-only runs of the loop. -/

theorem parseLoop_positionals (cur : Parser) (toks : List String) (r : Result)
    (h : ∀ t ∈ toks, strStarts t "-" = false ∧ List.lookup t cur.commands = none) :
    parseLoop cur toks r = Except.ok { r with Positionals := r.Positionals ++ toks } := by
  induction toks generalizing r with
  | nil => simp [parseLoop]
  | cons t rest ih =>
    obtain ⟨hd, hl⟩ := h t (by simp)
    rw [parseLoop_step_pos cur t rest r hl hd]
    rw [ih _ fun t2 ht2 => h t2 (by simp [ht2])]
    simp

/-! Facts about the dispatch walk. -/

theorem runWalk_append (p : Parser) (xs : List String) (y : String) :
    runWalk p (xs ++ [y]) = (runWalk p xs).bind fun n => List.lookup y n.commands := by
  induction xs generalizing p with
  | nil =>
    cases h : List.lookup y p.commands <;> simp [runWalk, h]
  | cons c cs ih =>
    simp only [List.cons_append, runWalk]
    cases h : List.lookup c p.commands with
    | none => simp
    | some child => simp [ih child]

theorem parseFlag_command (fs : List flagDef) (arg : String) (r r2 : Result) (n : Nat)
    (h : parseFlag fs arg r = some (r2, n)) : r2.Command = r.Command := by
  induction fs with
  | nil => cases h
  | cons f rest ih =>
    by_cases hm : flagMatches f arg = true
    · simp [parseFlag, hm] at h
      rw [← h.1]
    · have hm2 : flagMatches f arg = false := by
        cases hq : flagMatches f arg
        · rfl
        · exact absurd hq hm
      simp only [parseFlag, hm2, Bool.false_eq_true, if_false] at h
      exact ih h

theorem parseOption_command (os : List optionDef) (arg : String) (argsFrom : List String)
    (r r2 : Result) (c : Nat)
    (h : parseOption os arg argsFrom r = some (r2, c)) : r2.Command = r.Command := by
  induction os with
  | nil => cases h
  | cons o rest ih =>
    simp only [parseOption] at h
    split at h
    · simp at h
      rw [← h.1]
    · split at h
      · simp at h
        rw [← h.1]
      · split at h
        · split at h
          · simp at h
            rw [← h.1]
          · cases h
        · exact ih h

/-- parseLoop_walk is the loop invariant behind claim C10: if the command path
accumulated so far replays from the root to the current active node, then any
successful run of the remaining loop leaves a command path that still replays
from the root to some node. -/
theorem parseLoop_walk (p : Parser) :
    ∀ (n : Nat) (toks : List String), toks.length ≤ n →
      ∀ (cur : Parser) (r r2 : Result),
        runWalk p r.Command = some cur →
        parseLoop cur toks r = Except.ok r2 →
        (runWalk p r2.Command).isSome = true := by
  intro n
  induction n with
  | zero =>
    intro toks hlen cur r r2 hw hp
    have htoks : toks = [] := List.eq_nil_of_length_eq_zero (Nat.le_zero.mp hlen)
    subst htoks
    simp only [parseLoop, Except.ok.injEq] at hp
    subst hp
    simp [hw]
  | succ n ih =>
    intro toks hlen cur r r2 hw hp
    cases toks with
    | nil =>
      simp only [parseLoop, Except.ok.injEq] at hp
      subst hp
      simp [hw]
    | cons t rest =>
      have hrest : rest.length ≤ n := by
        simp only [List.length_cons] at hlen
        omega
      cases hc : List.lookup t cur.commands with
      | some cmd =>
        rw [parseLoop_step_sub cur cmd t rest r hc] at hp
        refine ih rest hrest cmd _ r2 ?_ hp
        rw [runWalk_append, hw]
        simp [hc]
      | none =>
        cases hd : strStarts t "-" with
        | false =>
          rw [parseLoop_step_pos cur t rest r hc hd] at hp
          exact ih rest hrest cur { r with Positionals := r.Positionals ++ [t] } r2 hw hp
        | true =>
          cases hf : parseFlag cur.flags t r with
          | some pr =>
            obtain ⟨r3, n3⟩ := pr
            rw [parseLoop_step_flag cur t rest r r3 n3 hc hd hf] at hp
            have hcmd := parseFlag_command cur.flags t r r3 n3 hf
            exact ih rest hrest cur r3 r2 (by rw [hcmd]; exact hw) hp
          | none =>
            cases ho : parseOption cur.options t (t :: rest) r with
            | none =>
              rw [parseLoop_step_err cur t rest r hc hd hf ho] at hp
              cases hp
            | some pr =>
              obtain ⟨r3, c⟩ := pr
              have hcmd := parseOption_command cur.options t (t :: rest) r r3 c ho
              cases h2 : (c == 2) with
              | false =>
                rw [parseLoop_step_optc cur t rest r r3 c hc hd hf ho h2] at hp
                exact ih rest hrest cur r3 r2 (by rw [hcmd]; exact hw) hp
              | true =>
                have hc2 : c = 2 := by simpa using h2
                subst hc2
                cases rest with
                | nil =>
                  rw [parseLoop_step_opt2_end cur t r r3 hc hd hf ho] at hp
                  cases hp
                  rw [hcmd]
                  simp [hw]
                | cons v rest2 =>
                  rw [parseLoop_step_opt2 cur t v rest2 r r3 hc hd hf ho] at hp
                  refine ih rest2 (by simp only [List.length_cons] at hlen; omega) cur r3 r2
                    (by rw [hcmd]; exact hw) hp

/-! Facts about the help-collection walks. -/

theorem collectFlagsAux_found (l : List flagDef) :
    ∀ (seen : List String) (g : flagDef), g ∈ collectFlagsAux l seen →
      g.name ∉ seen ∧ List.find? (fun f => f.name == g.name) l = some g := by
  induction l with
  | nil =>
    intro seen g hg
    simp [collectFlagsAux] at hg
  | cons f fs ih =>
    intro seen g hg
    by_cases hseen : f.name ∈ seen
    · rw [collectFlagsAux, if_pos hseen] at hg
      obtain ⟨h1, h2⟩ := ih seen g hg
      refine ⟨h1, ?_⟩
      have hne : (f.name == g.name) = false := by
        cases hq : f.name == g.name
        · rfl
        · exact absurd (beq_iff_eq.mp hq ▸ hseen) h1
      simp [List.find?, hne, h2]
    · rw [collectFlagsAux, if_neg hseen] at hg
      rcases List.mem_cons.mp hg with hgf | hg2
      · subst hgf
        exact ⟨hseen, by simp [List.find?]⟩
      · obtain ⟨h1, h2⟩ := ih (f.name :: seen) g hg2
        have hne : g.name ≠ f.name := fun he => h1 (by simp [he])
        have hne2 : (f.name == g.name) = false := by
          cases hq : f.name == g.name
          · rfl
          · exact absurd (beq_iff_eq.mp hq).symm hne
        refine ⟨fun hs => h1 (by simp [hs]), ?_⟩
        simp [List.find?, hne2, h2]

theorem collectFlagsAux_nodup (l : List flagDef) :
    ∀ seen : List String, ((collectFlagsAux l seen).map flagDef.name).Nodup := by
  induction l with
  | nil => intro seen; simp [collectFlagsAux]
  | cons f fs ih =>
    intro seen
    by_cases hseen : f.name ∈ seen
    · rw [collectFlagsAux, if_pos hseen]
      exact ih seen
    · rw [collectFlagsAux, if_neg hseen]
      refine List.nodup_cons.mpr ⟨?_, ih (f.name :: seen)⟩
      intro hmem
      obtain ⟨g, hg, hgname⟩ := List.mem_map.mp hmem
      have := (collectFlagsAux_found fs (f.name :: seen) g hg).1
      exact this (by simp [hgname])

theorem collectFlagsAux_covers (l : List flagDef) :
    ∀ (seen : List String) (f : flagDef), f ∈ l → f.name ∉ seen →
      ∃ g ∈ collectFlagsAux l seen, g.name = f.name := by
  induction l with
  | nil =>
    intro seen f hf
    cases hf
  | cons f0 fs ih =>
    intro seen f hf hns
    by_cases hseen : f0.name ∈ seen
    · rw [collectFlagsAux, if_pos hseen]
      rcases List.mem_cons.mp hf with hf0 | hf2
      · subst hf0
        exact absurd hseen hns
      · exact ih seen f hf2 hns
    · rw [collectFlagsAux, if_neg hseen]
      by_cases hname : f.name = f0.name
      · exact ⟨f0, by simp, hname.symm⟩
      · rcases List.mem_cons.mp hf with hf0 | hf2
        · exact absurd (congrArg flagDef.name hf0) hname
        · obtain ⟨g, hg, hgn⟩ := ih (f0.name :: seen) f hf2 (by simp [hname, hns])
          exact ⟨g, by simp [hg], hgn⟩

theorem collectOptionsAux_found (l : List optionDef) :
    ∀ (seen : List String) (g : optionDef), g ∈ collectOptionsAux l seen →
      g.name ∉ seen ∧ List.find? (fun o => o.name == g.name) l = some g := by
  induction l with
  | nil =>
    intro seen g hg
    simp [collectOptionsAux] at hg
  | cons f fs ih =>
    intro seen g hg
    by_cases hseen : f.name ∈ seen
    · rw [collectOptionsAux, if_pos hseen] at hg
      obtain ⟨h1, h2⟩ := ih seen g hg
      refine ⟨h1, ?_⟩
      have hne : (f.name == g.name) = false := by
        cases hq : f.name == g.name
        · rfl
        · exact absurd (beq_iff_eq.mp hq ▸ hseen) h1
      simp [List.find?, hne, h2]
    · rw [collectOptionsAux, if_neg hseen] at hg
      rcases List.mem_cons.mp hg with hgf | hg2
      · subst hgf
        exact ⟨hseen, by simp [List.find?]⟩
      · obtain ⟨h1, h2⟩ := ih (f.name :: seen) g hg2
        have hne : g.name ≠ f.name := fun he => h1 (by simp [he])
        have hne2 : (f.name == g.name) = false := by
          cases hq : f.name == g.name
          · rfl
          · exact absurd (beq_iff_eq.mp hq).symm hne
        refine ⟨fun hs => h1 (by simp [hs]), ?_⟩
        simp [List.find?, hne2, h2]

theorem collectOptionsAux_nodup (l : List optionDef) :
    ∀ seen : List String, ((collectOptionsAux l seen).map optionDef.name).Nodup := by
  induction l with
  | nil => intro seen; simp [collectOptionsAux]
  | cons f fs ih =>
    intro seen
    by_cases hseen : f.name ∈ seen
    · rw [collectOptionsAux, if_pos hseen]
      exact ih seen
    · rw [collectOptionsAux, if_neg hseen]
      refine List.nodup_cons.mpr ⟨?_, ih (f.name :: seen)⟩
      intro hmem
      obtain ⟨g, hg, hgname⟩ := List.mem_map.mp hmem
      have := (collectOptionsAux_found fs (f.name :: seen) g hg).1
      exact this (by simp [hgname])

theorem collectOptionsAux_covers (l : List optionDef) :
    ∀ (seen : List String) (f : optionDef), f ∈ l → f.name ∉ seen →
      ∃ g ∈ collectOptionsAux l seen, g.name = f.name := by
  induction l with
  | nil =>
    intro seen f hf
    cases hf
  | cons f0 fs ih =>
    intro seen f hf hns
    by_cases hseen : f0.name ∈ seen
    · rw [collectOptionsAux, if_pos hseen]
      rcases List.mem_cons.mp hf with hf0 | hf2
      · subst hf0
        exact absurd hseen hns
      · exact ih seen f hf2 hns
    · rw [collectOptionsAux, if_neg hseen]
      by_cases hname : f.name = f0.name
      · exact ⟨f0, by simp, hname.symm⟩
      · rcases List.mem_cons.mp hf with hf0 | hf2
        · exact absurd (congrArg optionDef.name hf0) hname
        · obtain ⟨g, hg, hgn⟩ := ih (f0.name :: seen) f hf2 (by simp [hname, hns])
          exact ⟨g, by simp [hg], hgn⟩

/-! Claim theorems. -/

/-- Claim C1: at every position of the main loop of Parse, a token that
exactly equals the name of a child command of the current active node is
consumed as a subcommand — appended to Result.Command, active node advanced to
that child, cursor advanced by one — before any flag, option or positional
reading is attempted, whatever the shape of the token; in particular a token
that could also match a flag or an option at the same node is resolved as a
subcommand. -/
theorem subcommand_precedence (cur c : Parser) (t : String) (rest : List String) (r : Result)
    (h : List.lookup t cur.commands = some c) :
    parseLoop cur (t :: rest) r = parseLoop c rest { r with Command := r.Command ++ [t] } :=
  parseLoop_step_sub cur c t rest r h

/-- Witness for C1 at nodeClash, where the token is both the name of a child
command and the long form of a declared flag: the subcommand wins. -/
theorem subcommand_precedence_witness :
    parseLoop nodeClash [("--detach")] emptyR =
      parseLoop emptyNode [] { emptyR with Command := [("--detach")] } :=
  subcommand_precedence nodeClash emptyNode ("--detach") [] emptyR rfl

/-- Claim C2 counterexample: in P2x the dash-prefixed token matches no
declared flag and no declared option at the root, since the root declares
none, yet Parse does not fail: the token is the name of a child command and is
consumed as a subcommand. -/
theorem unknown_flag_counterexample :
    Parser.Parse P2x [("--x")] =
      Except.ok { Command := [("--x")], Flags := [], Options := [],
                  Positionals := [], Args := [] } := rfl

/-- Claim C2 (amended): a dash-prefixed token that is not the name of a child
command of the current active node and matches no declared flag and no
declared option there fails the loop with the unknown-flag error carrying
exactly that token, and Parse started at that node on that input fails the
same way with no partial result; the option hypothesis admits a bare option
form when the token is last, so an option bare form with no following value
token surfaces as this same unknown-flag error. -/
theorem unknown_flag_errors (cur : Parser) (t : String) (rest : List String) (r : Result)
    (hdash : strStarts t "-" = true)
    (hchild : List.lookup t cur.commands = none)
    (hflag : ∀ f ∈ cur.flags, flagMatches f t = false)
    (hopt : ∀ o ∈ cur.options, inlineMatches o t = false ∧ (bareMatches o t = true → rest = [])) :
    parseLoop cur (t :: rest) r = Except.error ("unknown flag: " ++ t) ∧
    Parser.Parse cur (t :: rest) = Except.error ("unknown flag: " ++ t) := by
  have hopt2 : ∀ r0 : Result, parseOption cur.options t (t :: rest) r0 = none := by
    intro r0
    refine parseOption_none cur.options t (t :: rest) r0 fun o ho => ⟨(hopt o ho).1, fun hb => ?_⟩
    rw [(hopt o ho).2 hb]
    simp
  have herr : ∀ r0 : Result, parseLoop cur (t :: rest) r0 = Except.error ("unknown flag: " ++ t) :=
    fun r0 => parseLoop_step_err cur t rest r0 hchild hdash
      (parseFlag_none cur.flags t r0 hflag) (hopt2 r0)
  exact ⟨herr r, by simp [Parser.Parse, herr]⟩

/-- Witness for C2 on the spec scenario: a root declaring option config with
short c, input of the bare option token alone, with no following value
token. -/
theorem unknown_flag_errors_witness :
    Parser.Parse nodeCfg [("--config")] = Except.error ("unknown flag: " ++ "--config") :=
  (unknown_flag_errors nodeCfg ("--config") [] emptyR (by decide) rfl (by decide) (by decide)).2

/-- Claim C3: flag and option matching consults only the declarations of the
current active node, never the ancestors: after Parse has descended into a
child via subcommand matching, a dash-prefixed token that matches a flag or an
option declared at the root but is not a child name of the child node,
matches none of the flags of the child and none of the inline option forms of
the child, fails with the unknown-flag error instead of being accepted. -/
theorem ancestor_decls_not_consulted (root c : Parser) (cname t : String)
    (hroot : List.lookup cname root.commands = some c)
    (_hanc : (∃ f ∈ root.flags, flagMatches f t = true) ∨ (∃ o ∈ root.options, optMatches o t = true))
    (hdash : strStarts t "-" = true)
    (hchild : List.lookup t c.commands = none)
    (hflag : ∀ f ∈ c.flags, flagMatches f t = false)
    (hopt : ∀ o ∈ c.options, inlineMatches o t = false) :
    Parser.Parse root [cname, t] = Except.error ("unknown flag: " ++ t) := by
  have h1 := parseLoop_step_sub root c cname [t]
    { Command := [], Flags := [], Options := [], Positionals := [], Args := [] } hroot
  have h3 : parseLoop root [cname, t]
      { Command := [], Flags := [], Options := [], Positionals := [], Args := [] } =
      Except.error ("unknown flag: " ++ t) := by
    rw [h1]
    exact parseLoop_step_err c t [] _ hchild hdash (parseFlag_none c.flags t _ hflag)
      (parseOption_none c.options t [t] _ fun o ho => ⟨hopt o ho, fun _ => by simp⟩)
  simp only [Parser.Parse, h3]

/-- Witness for C3: the root declares flag verbose, the child sub declares
nothing; after descending into sub the verbose token is rejected. -/
theorem ancestor_decls_not_consulted_witness :
    Parser.Parse rootV [("sub"), ("--verbose")] = Except.error ("unknown flag: " ++ "--verbose") :=
  ancestor_decls_not_consulted rootV emptyNode ("sub") ("--verbose") rfl
    (Or.inl ⟨flagDef.mk ("verbose") ("v") (""), by decide, by decide⟩)
    (by decide) rfl (by decide) (by decide)

/-- Claim C7: a non-empty token sequence in which no token is dash-prefixed
and no token equals a child-command name of any node reached during the walk —
under these hypotheses the walk never leaves the root, so the reached nodes
are exactly the root — parses successfully into exactly those tokens as
Positionals, in order and unmodified, with Command, Flags and Options all
empty. -/
theorem positionals_only (p : Parser) (toks : List String)
    (hne : toks ≠ [])
    (h : ∀ t ∈ toks, strStarts t "-" = false ∧ List.lookup t p.commands = none) :
    Parser.Parse p toks =
      Except.ok { Command := [], Flags := [], Options := [], Positionals := toks, Args := toks } := by
  cases toks with
  | nil => exact absurd rfl hne
  | cons t rest =>
    have hrun := parseLoop_positionals p (t :: rest)
      { Command := [], Flags := [], Options := [], Positionals := [], Args := [] } h
    simp only [Parser.Parse, hrun]
    simp

/-- Witness for C7 on two plain tokens against the README root. -/
theorem positionals_only_witness :
    Parser.Parse nodeApp [("nginx"), ("web")] =
      Except.ok { Command := [], Flags := [], Options := [],
                  Positionals := [("nginx"), ("web")], Args := [("nginx"), ("web")] } :=
  positionals_only nodeApp [("nginx"), ("web")] (by decide)
    (by
      intro t ht
      simp only [List.mem_cons, List.not_mem_nil, or_false] at ht
      rcases ht with h | h <;> subst h <;> exact ⟨rfl, rfl⟩)

/-- Claim C9: Parse applied to the empty token sequence fails with the
empty-input error, for every parser tree. -/
theorem empty_input_error (p : Parser) :
    Parser.Parse p [] = Except.error ("no arguments provided") := rfl

/-- Claim C10: every Result produced by a successful Parse on a root denotes a
valid root-to-node path of that tree: replaying Result.Command through child
lookups from the root, as Run does without any check, reaches a node — the
walk never falls off onto a missing child. -/
theorem command_path_valid (p : Parser) (args : List String) (r : Result)
    (h : Parser.Parse p args = Except.ok r) :
    (runWalk p r.Command).isSome = true := by
  cases args with
  | nil => simp [Parser.Parse] at h
  | cons a as =>
    simp only [Parser.Parse] at h
    cases hp : parseLoop p (a :: as)
        { Command := [], Flags := [], Options := [], Positionals := [], Args := [] } with
    | error e =>
      rw [hp] at h
      cases h
    | ok r0 =>
      rw [hp] at h
      have hr : r = { r0 with Args := r0.Positionals } := by
        cases h
        rfl
      have hwalk := parseLoop_walk p (a :: as).length (a :: as) le_rfl p
        { Command := [], Flags := [], Options := [], Positionals := [], Args := [] } r0 rfl hp
      rw [hr]
      exact hwalk

/-- Witness for C10 on the README scenario parse. -/
theorem command_path_valid_witness :
    (runWalk nodeApp resApp.Command).isSome = true :=
  command_path_valid nodeApp [("run"), ("-d"), ("--name=web"), ("nginx")] resApp rfl

/-- Claim C4 counterexample: the option a is declared at the root of P4 and
the token is its inline form with value v, so the claim requires Parse to
store v under a in Options after consuming the token; but P4 also declares a
flag whose name is the whole literal a=v, flags are tried before options, so
Parse records that flag and stores nothing in Options. -/
theorem inline_option_counterexample :
    Parser.Parse P4 [("--a=v")] =
      Except.ok { Command := [], Flags := [(("a=v"), true)], Options := [],
                  Positionals := [], Args := [] } := rfl

/-- Claim C4 (amended): for an option declared at the active node, a token in
the inline form of the option name followed by an equals sign and the value —
or of the short alias when one is set — makes the loop store exactly that
value, which for an option name free of equals signs is the substring after
the first equals sign, under the option name in Result.Options, consuming one
token; provided the token is not a child-command name of the node, matches no
declared flag of the node, matches no other declared option of the node, and
in the short-alias case does not simultaneously carry the long inline form.
The empty value is included, since v may be the empty string. -/
theorem inline_option_stores (cur : Parser) (opt : optionDef) (v t : String)
    (rest : List String) (r : Result)
    (hmem : opt ∈ cur.options)
    (hform : t = "--" ++ opt.name ++ "=" ++ v ∨
      (opt.short ≠ "" ∧ t = "-" ++ opt.short ++ "=" ++ v ∧
        strStarts t ("--" ++ opt.name ++ "=") = false))
    (hchild : List.lookup t cur.commands = none)
    (hflag : ∀ f ∈ cur.flags, flagMatches f t = false)
    (hother : ∀ o ∈ cur.options, o ≠ opt → optMatches o t = false) :
    parseLoop cur (t :: rest) r = parseLoop cur rest { r with Options := (opt.name, v) :: r.Options } ∧
    List.lookup opt.name ((opt.name, v) :: r.Options) = some v := by
  refine ⟨?_, by simp⟩
  rcases hform with hf | ⟨hshort, hf, hnl⟩
  · have hst : strStarts t ("--" ++ opt.name ++ "=") = true := by
      rw [hf]
      exact strStarts_self_append ("--" ++ opt.name ++ "=") v
    have hdash : strStarts t "-" = true := by
      rw [hf, strAppend_assoc, strAppend_assoc]
      exact strStarts_ddash_dash _
    have hval : strDrop t ("--" ++ opt.name ++ "=").length = v := by
      rw [hf]
      exact strDrop_self_append ("--" ++ opt.name ++ "=") v
    have hopt := parseOption_first_long cur.options opt t (t :: rest) r hmem hst hother
    rw [hval] at hopt
    exact parseLoop_step_opt1 cur t rest r _ hchild hdash (parseFlag_none cur.flags t r hflag) hopt
  · have hst : strStarts t ("-" ++ opt.short ++ "=") = true := by
      rw [hf]
      exact strStarts_self_append ("-" ++ opt.short ++ "=") v
    have hdash : strStarts t "-" = true := by
      rw [hf, strAppend_assoc, strAppend_assoc]
      exact strStarts_dash_dash _
    have hval : strDrop t ("-" ++ opt.short ++ "=").length = v := by
      rw [hf]
      exact strDrop_self_append ("-" ++ opt.short ++ "=") v
    have hopt := parseOption_first_short cur.options opt t (t :: rest) r hmem hshort hst hnl hother
    rw [hval] at hopt
    exact parseLoop_step_opt1 cur t rest r _ hchild hdash (parseFlag_none cur.flags t r hflag) hopt

/-- Witness for C4 on the README run node: the inline name option stores its
value and one token is consumed. -/
theorem inline_option_stores_witness :
    (parseLoop nodeRun [("--name=web")] emptyR =
      parseLoop nodeRun [] { emptyR with Options := [(("name"), ("web"))] }) ∧
    List.lookup ("name") [(("name"), ("web"))] = some ("web") :=
  inline_option_stores nodeRun (optionDef.mk ("name") ("") ("") []) ("web") ("--name=web") []
    emptyR (by decide) (Or.inl (by decide)) rfl (by decide) (by decide)

/-- Claim C5 counterexample: the option x is declared at the root of P5 and
the token is its bare form followed by a value token, so the claim requires
Parse to store v under x consuming both tokens; but P5 also declares a flag
named x, flags are tried before options, so Parse records the flag, consumes
one token, and the would-be value becomes a positional. -/
theorem space_option_counterexample :
    Parser.Parse P5 [("--x"), ("v")] =
      Except.ok { Command := [], Flags := [(("x"), true)], Options := [],
                  Positionals := [("v")], Args := [("v")] } := rfl

/-- Claim C5 (amended): for an option declared at the active node, a token
equal to the bare form of the option — the long name form, or the short alias
form when one is set — followed by at least one more token makes the loop
store that following token verbatim under the option name in Result.Options
and consume exactly two tokens; provided the token is not a child-command
name of the node, does not carry an inline form of this option, matches no
declared flag of the node, and matches no other declared option of the
node. -/
theorem space_option_stores (cur : Parser) (opt : optionDef) (v t : String)
    (rest : List String) (r : Result)
    (hmem : opt ∈ cur.options)
    (hform : t = "--" ++ opt.name ∨ (opt.short ≠ "" ∧ t = "-" ++ opt.short))
    (hnoinline : inlineMatches opt t = false)
    (hchild : List.lookup t cur.commands = none)
    (hflag : ∀ f ∈ cur.flags, flagMatches f t = false)
    (hother : ∀ o ∈ cur.options, o ≠ opt → optMatches o t = false) :
    parseLoop cur (t :: v :: rest) r = parseLoop cur rest { r with Options := (opt.name, v) :: r.Options } ∧
    List.lookup opt.name ((opt.name, v) :: r.Options) = some v := by
  refine ⟨?_, by simp⟩
  have hbare : bareMatches opt t = true := by
    rcases hform with hf | ⟨hs, hf⟩
    · simp [bareMatches, hf]
    · simp [bareMatches, hf, hs]
  have hdash : strStarts t "-" = true := by
    rcases hform with hf | ⟨hs, hf⟩
    · rw [hf]
      exact strStarts_ddash_dash _
    · rw [hf]
      exact strStarts_dash_dash _
  have hopt := parseOption_first_bare cur.options opt t t v rest r hmem hbare hnoinline hother
  exact parseLoop_step_opt2 cur t v rest r _ hchild hdash (parseFlag_none cur.flags t r hflag) hopt

/-- Witness for C5 on the spec scenario: option config with short c, bare
long token followed by the value token. -/
theorem space_option_stores_witness :
    (parseLoop nodeCfg [("--config"), ("app.conf")] emptyR =
      parseLoop nodeCfg [] { emptyR with Options := [(("config"), ("app.conf"))] }) ∧
    List.lookup ("config") [(("config"), ("app.conf"))] = some ("app.conf") :=
  space_option_stores nodeCfg (optionDef.mk ("config") ("c") ("") []) ("app.conf") ("--config") []
    emptyR (by decide) (Or.inl (by decide)) (by decide) rfl (by decide) (by decide)

/-- Claim C6 counterexample: the flag a is declared at the root of P6 and the
token equals its long form, so the claim requires Result.Flags to hold a as
true with one token consumed; but P6 also has a child command named with that
same literal, subcommands are matched first, so Parse records a command-path
entry and sets no flag. -/
theorem flag_token_counterexample :
    Parser.Parse P6 [("--a")] =
      Except.ok { Command := [("--a")], Flags := [], Options := [],
                  Positionals := [], Args := [] } := rfl

/-- Claim C6 (amended): a token equal to the long form of a flag declared at
the active node, or to the dash-short form when a non-empty short alias is
set, makes the loop record that flag name as true in Result.Flags, consuming
one token — provided the token is not a child-command name of the node and no
other declared flag of the node matches the same literal; and the Result flag
accessor reads a missing key as false, never as an error. -/
theorem flag_sets_true (cur : Parser) (f : flagDef) (t : String)
    (rest : List String) (r : Result)
    (hmem : f ∈ cur.flags)
    (hform : t = "--" ++ f.name ∨ (f.short ≠ "" ∧ t = "-" ++ f.short))
    (hchild : List.lookup t cur.commands = none)
    (hother : ∀ g ∈ cur.flags, g ≠ f → flagMatches g t = false) :
    parseLoop cur (t :: rest) r = parseLoop cur rest { r with Flags := (f.name, true) :: r.Flags } ∧
    List.lookup f.name ((f.name, true) :: r.Flags) = some true ∧
    (∀ (r2 : Result) (nm : String), List.lookup nm r2.Flags = none → r2.Flag nm = false) := by
  have hm : flagMatches f t = true := by
    rcases hform with hf | ⟨hs, hf⟩
    · rw [hf]
      exact flagMatches_long f
    · rw [hf]
      exact flagMatches_short f hs
  have hdash : strStarts t "-" = true := by
    rcases hform with hf | ⟨hs, hf⟩
    · rw [hf]
      exact strStarts_ddash_dash _
    · rw [hf]
      exact strStarts_dash_dash _
  refine ⟨?_, by simp, ?_⟩
  · exact parseLoop_step_flag cur t rest r _ 1 hchild hdash
      (parseFlag_first cur.flags f t r hmem hm hother)
  · intro r2 nm hnone
    simp [Result.Flag, hnone]

/-- Witness for C6 on the README run node with the short detach token, plus
the accessor reading a missing key of the empty Result as false. -/
theorem flag_sets_true_witness :
    (parseLoop nodeRun [("-d")] emptyR =
      parseLoop nodeRun [] { emptyR with Flags := [(("detach"), true)] }) ∧
    emptyR.Flag ("missing") = false :=
  ⟨(flag_sets_true nodeRun (flagDef.mk ("detach") ("d") ("")) ("-d") [] emptyR
      (by decide) (Or.inr (by decide)) rfl (by decide)).1,
    (flag_sets_true nodeRun (flagDef.mk ("detach") ("d") ("")) ("-d") [] emptyR
      (by decide) (Or.inr (by decide)) rfl (by decide)).2.2 emptyR ("missing") rfl⟩

/-- Claim C8: the help-collection walks return exactly one definition per
distinct name found on the node and its ancestor chain: the name list of the
result has no duplicates, every name occurring anywhere along the chain is
represented in the result, and the definition kept for each name is the first
one met walking from the node upward, so a definition at a closer level
suppresses a same-named one at a more distant ancestor; this holds for
collectFlags and analogously for collectOptions, for chains of any depth,
including three-level chains. -/
theorem collect_walk_shadowing (chainF : List (List flagDef)) (chainO : List (List optionDef)) :
    (((collectFlags chainF).map flagDef.name).Nodup ∧
      (∀ f ∈ chainF.flatten, ∃ g ∈ collectFlags chainF, g.name = f.name) ∧
      (∀ g ∈ collectFlags chainF,
        List.find? (fun f => f.name == g.name) chainF.flatten = some g)) ∧
    (((collectOptions chainO).map optionDef.name).Nodup ∧
      (∀ o ∈ chainO.flatten, ∃ g ∈ collectOptions chainO, g.name = o.name) ∧
      (∀ g ∈ collectOptions chainO,
        List.find? (fun o => o.name == g.name) chainO.flatten = some g)) := by
  refine ⟨⟨collectFlagsAux_nodup chainF.flatten [], ?_, ?_⟩,
    collectOptionsAux_nodup chainO.flatten [], ?_, ?_⟩
  · intro f hf
    exact collectFlagsAux_covers chainF.flatten [] f hf (by simp)
  · intro g hg
    exact (collectFlagsAux_found chainF.flatten [] g hg).2
  · intro o ho
    exact collectOptionsAux_covers chainO.flatten [] o ho (by simp)
  · intro g hg
    exact (collectOptionsAux_found chainO.flatten [] g hg).2

/-- Witness for C8 on concrete three-level chains: the root-level flag name
appears in the collection, and the shadowed duplicate name resolves to the
definition of the level closest to the node. -/
theorem collect_walk_shadowing_witness :
    (∃ g ∈ collectFlags chainF3, g.name = ("force")) ∧
    List.find? (fun o => o.name == ("out")) chainO3.flatten =
      some (optionDef.mk ("out") ("o") ("") []) :=
  ⟨(collect_walk_shadowing chainF3 chainO3).1.2.1 (flagDef.mk ("force") ("f") ("")) (by decide),
    (collect_walk_shadowing chainF3 chainO3).2.2.2 (optionDef.mk ("out") ("o") ("") []) (by decide)⟩

end ArgsSpec
